import Mathlib

/-!
# Verification of the "calculadora" budget client

A shallow embedding of the repository's service layer:

* `src/services/geminiService.ts` — the budget fetch pipeline
  (`fetchCityBudgetData`: JSON extraction from the model response,
  grounding-source merge, result assembly, error classification) and the
  suggestion client (`fetchCitySuggestions`);
* `src/services/correctionService.ts` — the persisted correction store
  (`saveCorrection`, `getCorrections`, `getRelevantCorrections`).

Strings are modelled as `List Char`.  The platform's `JSON.parse` is
modelled by an executable recursive-descent parser `jsonParse` over a
JSON value type `Json`; the model restricts JSON numbers to naturals and
string contents to "plain" characters (no quote, backslash, backtick or
control characters), which is the fragment the round-trip claims are
settled over.  `localStorage` is modelled by an explicit `Storage` state,
`navigator.onLine` by a boolean parameter, and the external model call by
an `Except` parameter (exception message, or response data).
-/

namespace Calc

/-- `String.toList`, used to write `List Char` literals readably. -/
def strL (s : String) : List Char := s.toList

/-- JSON / JS whitespace characters (the ASCII ones that occur here). -/
def isWs (c : Char) : Bool := c = ' ' || c = '\n' || c = '\t' || c = '\r'

/-- Drop leading whitespace. -/
def skipWs (s : List Char) : List Char := s.dropWhile isWs

/-- Trim whitespace from both ends (the `\s*` trimming the fenced-block
regex performs around its capture group). -/
def trimWs (s : List Char) : List Char :=
  ((s.dropWhile isWs).reverse.dropWhile isWs).reverse

/-- ASCII lower-casing of one character, as `String.prototype.toLowerCase`
acts on the ASCII range (all messages classified here are ASCII). -/
def lowerChar (c : Char) : Char :=
  if 'A' ≤ c ∧ c ≤ 'Z' then Char.ofNat (c.toNat + 32) else c

/-- ASCII lower-casing of a string. -/
def lowerL (s : List Char) : List Char := s.map lowerChar

/-- Split `s` at the first occurrence of `pat`: returns the part before
the occurrence and the part after it.  `none` when `pat` does not occur. -/
def splitOnFirst (pat : List Char) : List Char → Option (List Char × List Char)
  | [] => if pat.isPrefixOf ([] : List Char) then some ([], []) else none
  | c :: t =>
    if pat.isPrefixOf (c :: t) then some ([], (c :: t).drop pat.length)
    else (splitOnFirst pat t).map (fun p => (c :: p.1, p.2))

/-- `String.prototype.includes`: `pat` occurs as a substring of `s`. -/
def containsSub (pat s : List Char) : Bool := (splitOnFirst pat s).isSome

/-- JS truthiness-based defaulting `o || d` for an optional string field:
`undefined` and the empty string both fall back to the default. -/
def jsDefaultStr (o : Option (List Char)) (d : List Char) : List Char :=
  match o with
  | some s => if s.isEmpty then d else s
  | none => d

/-- JS falsiness `!o` of an optional string: `undefined` and `""`. -/
def jsFalsyOpt (o : Option (List Char)) : Bool :=
  match o with
  | none => true
  | some s => s.isEmpty

/-! ## The JSON value model -/

/-- JSON values as `JSON.parse` produces them, restricted to natural
numbers.  Object fields are kept in order of appearance. -/
inductive Json where
  | null : Json
  | bool (b : Bool) : Json
  | num (n : Nat) : Json
  | str (s : List Char) : Json
  | arr (xs : List Json) : Json
  | obj (kvs : List (List Char × Json)) : Json

/-- Characters allowed inside modelled JSON strings: printable, not the
quote or backslash (so no escaping is needed) and not the backtick (so a
serialization can never collide with the fenced-block sniffing). -/
def plainChar (c : Char) : Bool :=
  c != '"' && c != '\\' && c != '`' && decide (32 ≤ c.toNat)

mutual

/-- Well-formedness of a modelled JSON value: every string and key is made
of `plainChar`s. -/
def Json.wf : Json → Bool
  | .null => true
  | .bool _ => true
  | .num _ => true
  | .str s => s.all plainChar
  | .arr xs => Json.wfItems xs
  | .obj kvs => Json.wfMembers kvs

def Json.wfItems : List Json → Bool
  | [] => true
  | x :: xs => x.wf && Json.wfItems xs

def Json.wfMembers : List (List Char × Json) → Bool
  | [] => true
  | (k, v) :: kvs => k.all plainChar && v.wf && Json.wfMembers kvs

end

/-- The decimal digit characters `'0'..'9'`. -/
def digitChar (d : Nat) : Char :=
  if d = 0 then '0' else if d = 1 then '1' else if d = 2 then '2'
  else if d = 3 then '3' else if d = 4 then '4' else if d = 5 then '5'
  else if d = 6 then '6' else if d = 7 then '7' else if d = 8 then '8'
  else '9'

/-- Decimal rendering of a natural number (`String(n)` for naturals). -/
def natChars (n : Nat) : List Char :=
  if n = 0 then ['0'] else ((Nat.digits 10 n).map digitChar).reverse

mutual

/-- Serialization of a modelled JSON value, as `JSON.stringify` renders
values in the modelled fragment (no added whitespace). -/
def Json.ser : Json → List Char
  | .null => strL "null"
  | .bool true => strL "true"
  | .bool false => strL "false"
  | .num n => natChars n
  | .str s => '"' :: s ++ ['"']
  | .arr xs => '[' :: (Json.serItems xs ++ [']'])
  | .obj kvs => '{' :: (Json.serMembers kvs ++ ['}'])

def Json.serItems : List Json → List Char
  | [] => []
  | x :: xs => x.ser ++ (if xs.isEmpty then [] else ',' :: Json.serItems xs)

def Json.serMembers : List (List Char × Json) → List Char
  | [] => []
  | (k, v) :: kvs =>
    '"' :: k ++ '"' :: ':' :: v.ser ++
      (if kvs.isEmpty then [] else ',' :: Json.serMembers kvs)

end

mutual

/-- Fuel bound used to run the recursive-descent parser on a serialized
value (each constructor costs a bounded amount of fuel). -/
def Json.size : Json → Nat
  | .null => 1
  | .bool _ => 1
  | .num _ => 1
  | .str _ => 1
  | .arr xs => 2 + Json.sizeItems xs
  | .obj kvs => 2 + Json.sizeMembers kvs

def Json.sizeItems : List Json → Nat
  | [] => 0
  | x :: xs => 1 + x.size + Json.sizeItems xs

def Json.sizeMembers : List (List Char × Json) → Nat
  | [] => 0
  | (_, v) :: kvs => 1 + v.size + Json.sizeMembers kvs

end

/-- JS truthiness of a parsed JSON value (`if (parsedJson)`). -/
def Json.truthy : Json → Bool
  | .null => false
  | .bool b => b
  | .num n => n != 0
  | .str s => !s.isEmpty
  | .arr _ => true
  | .obj _ => true

/-- Property access `j[k]` on a parsed JSON value: defined only on
objects, with the last duplicate key winning as in `JSON.parse`. -/
def Json.getField : Json → List Char → Option Json
  | .obj kvs, k => (kvs.reverse.find? (fun kv => kv.1 = k)).map (·.2)
  | _, _ => none

/-! ## The JSON.parse model: a fuel-indexed recursive-descent parser -/

/-- `48 ≤ c ≤ 57`, i.e. `c` is a decimal digit. -/
def isDigitC (c : Char) : Bool := decide (48 ≤ c.toNat) && decide (c.toNat ≤ 57)

/-- Numeric value of a list of digit characters, most significant first. -/
def digitsVal (ds : List Char) : Nat :=
  ds.foldl (fun a c => 10 * a + (c.toNat - 48)) 0

/-- Parse the body of a string literal after its opening quote (the
escape-free fragment): up to the closing quote. -/
def pStr (t : List Char) : Option (List Char × List Char) :=
  let content := t.takeWhile (fun c => c != '"')
  match t.drop content.length with
  | '"' :: r => some (content, r)
  | _ => none

/-- Expect the literal `lit` as a prefix of `s`, yielding value `v`. -/
def expectLit (lit : List Char) (s : List Char) (v : Json) :
    Option (Json × List Char) :=
  if lit.isPrefixOf s then some (v, s.drop lit.length) else none

mutual

/-- Parse one JSON value from the front of `s` (after optional
whitespace), returning it with the unconsumed remainder. -/
def pVal : Nat → List Char → Option (Json × List Char)
  | 0, _ => none
  | fuel + 1, s =>
    match skipWs s with
    | [] => none
    | c :: r =>
      if c = '{' then pObjBody fuel (skipWs r)
      else if c = '[' then pArrBody fuel (skipWs r)
      else if c = '"' then (pStr r).map (fun p => (Json.str p.1, p.2))
      else if c = 'n' then expectLit ['u', 'l', 'l'] r Json.null
      else if c = 't' then expectLit ['r', 'u', 'e'] r (Json.bool true)
      else if c = 'f' then expectLit ['a', 'l', 's', 'e'] r (Json.bool false)
      else
        let ds := (c :: r).takeWhile isDigitC
        if ds.isEmpty then none
        else some (Json.num (digitsVal ds), (c :: r).drop ds.length)

/-- Parse an array body after `[` and whitespace. -/
def pArrBody : Nat → List Char → Option (Json × List Char)
  | 0, _ => none
  | fuel + 1, s =>
    match s with
    | [] => none
    | c :: r =>
      if c = ']' then some (Json.arr [], r)
      else (pItems fuel (c :: r)).map (fun p => (Json.arr p.1, p.2))

/-- Parse one-or-more comma-separated array items, consuming the
closing `]`. -/
def pItems : Nat → List Char → Option (List Json × List Char)
  | 0, _ => none
  | fuel + 1, s =>
    match pVal fuel s with
    | none => none
    | some (v, r) =>
      match skipWs r with
      | [] => none
      | c :: r2 =>
        if c = ',' then
          match pItems fuel r2 with
          | some (vs, r3) => some (v :: vs, r3)
          | none => none
        else if c = ']' then some ([v], r2)
        else none

/-- Parse an object body after `{` and whitespace. -/
def pObjBody : Nat → List Char → Option (Json × List Char)
  | 0, _ => none
  | fuel + 1, s =>
    match s with
    | [] => none
    | c :: r =>
      if c = '}' then some (Json.obj [], r)
      else (pMembers fuel (c :: r)).map (fun p => (Json.obj p.1, p.2))

/-- Parse one-or-more comma-separated object members, consuming the
closing `}`. -/
def pMembers : Nat → List Char → Option (List (List Char × Json) × List Char)
  | 0, _ => none
  | fuel + 1, s =>
    match skipWs s with
    | [] => none
    | c :: r =>
      if c = '"' then
        match pStr r with
        | none => none
        | some (k, r1) =>
          match skipWs r1 with
          | [] => none
          | c2 :: r2 =>
            if c2 = ':' then
              match pVal fuel r2 with
              | none => none
              | some (v, r3) =>
                match skipWs r3 with
                | [] => none
                | c3 :: r4 =>
                  if c3 = ',' then
                    match pMembers fuel r4 with
                    | some (kvs, r5) => some ((k, v) :: kvs, r5)
                    | none => none
                  else if c3 = '}' then some ([(k, v)], r4)
                  else none
            else none
      else none

end

/-- The model of `JSON.parse` on the modelled fragment: parse one value
and require that only whitespace remains; `none` models a thrown
`SyntaxError`.  The fuel `3 * length + 3` dominates the parser's
recursion depth on any input. -/
def jsonParse (s : List Char) : Option Json :=
  match pVal (3 * s.length + 3) s with
  | some (v, r) => if (skipWs r).isEmpty then some v else none
  | none => none

/-! ## geminiService.ts: JSON extraction from the model response

`fetchCityBudgetData` (src/services/geminiService.ts, lines 126-138)
matches the response text against ``/```json\s*([\s\S]*?)\s*```/``; if the
match exists and its capture group is non-empty the capture is parsed,
otherwise the whole text is parsed directly. -/

/-- The regex match: content between the first ```` ```json ```` and the
next ```` ``` ````, with surrounding whitespace trimmed (the effect of the
greedy `\s*`s around the lazy capture group).  `none` when the fence
pattern does not match. -/
def extractFenced (text : List Char) : Option (List Char) :=
  match splitOnFirst (strL "```json") text with
  | none => none
  | some (_, rest) =>
    match splitOnFirst (strL "```") rest with
    | none => none
    | some (content, _) => some (trimWs content)

/-- Lines 126-134: the attempted JSON extraction.  `none` models the
`catch (e)` branch (a parse failure in whichever mode was attempted). -/
def extractJson (text : List Char) : Option Json :=
  match extractFenced text with
  | some c => if c.isEmpty then jsonParse text else jsonParse c
  | none => jsonParse text

/-! ## geminiService.ts: error taxonomy and classification -/

/-- The `type` strings given to `ServiceError`. -/
inductive ErrKind where
  | quota | safety | network | notFound | parsing | empty | generic
deriving DecidableEq, Repr

/-- The `rawError` argument attached to a `ServiceError`. -/
inductive Cause where
  /-- no third constructor argument (`undefined`). -/
  | undef : Cause
  /-- the exception thrown by `JSON.parse`. -/
  | parseExn : Cause
  /-- a `ServiceError` thrown inside the `try` block and caught by the
  outer `catch`, remembered by its kind. -/
  | svcErr (kind : ErrKind) : Cause
  /-- an exception surfacing from the AI call itself. -/
  | apiExn (msg : List Char) : Cause
deriving DecidableEq, Repr

/-- The `ServiceError` class of src/services/geminiService.ts. -/
structure ServiceError where
  message : List Char
  kind : ErrKind
  cause : Cause
deriving DecidableEq, Repr

/-- `errorMsg.includes("429") || errorMsg.toLowerCase().includes("quota")`. -/
def hasQuotaMarker (msg : List Char) : Bool :=
  containsSub (strL "429") msg || containsSub (strL "quota") (lowerL msg)

/-- `errorMsg.toLowerCase().includes("safety")`. -/
def hasSafetyMarker (msg : List Char) : Bool :=
  containsSub (strL "safety") (lowerL msg)

/-- `errorMsg.includes("Requested entity was not found")` — present only
in the older variant (src/unnamed/part_004). -/
def hasNotFoundMarker (msg : List Char) : Bool :=
  containsSub (strL "Requested entity was not found") msg

/-- The outer `catch` of `fetchCityBudgetData`
(src/services/geminiService.ts, lines 157-169): classify the caught
exception by its message and the connectivity state.  Note there is no
`not_found` rule in this variant. -/
def classifyErr (msg : List Char) (online : Bool) (cause : Cause) :
    ServiceError :=
  if hasQuotaMarker msg then ⟨strL "Quota exceeded", ErrKind.quota, cause⟩
  else if hasSafetyMarker msg then
    ⟨strL "Safety filter blocked request", ErrKind.safety, cause⟩
  else if !online then ⟨strL "No internet connection", ErrKind.network, cause⟩
  else ⟨jsDefaultStr (some msg) (strL "Unknown API error"), ErrKind.generic, cause⟩

/-- The kind `classifyErr` assigns (the cause does not influence it). -/
def classifyKind (msg : List Char) (online : Bool) : ErrKind :=
  (classifyErr msg online Cause.undef).kind

/-- The outer `catch` of the older variant
(src/unnamed/part_004, lines 145-160), which additionally classifies
`"Requested entity was not found"` as `not_found` after the safety rule
and before the connectivity rule. -/
def classifyKindPrev (msg : List Char) (online : Bool) : ErrKind :=
  if hasQuotaMarker msg then ErrKind.quota
  else if hasSafetyMarker msg then ErrKind.safety
  else if hasNotFoundMarker msg then ErrKind.notFound
  else if !online then ErrKind.network
  else ErrKind.generic

/-! ## geminiService.ts: grounding merge and result assembly -/

/-- A grounding chunk's `web` descriptor (optional title and uri). -/
structure WebInfo where
  title : Option (List Char)
  uri : Option (List Char)
deriving DecidableEq, Repr

/-- One element of `groundingMetadata.groundingChunks`. -/
structure Chunk where
  web : Option WebInfo
deriving DecidableEq, Repr

/-- `chunk.web?.title`. -/
def chunkTitle (ch : Chunk) : Option (List Char) := ch.web.bind WebInfo.title

/-- `chunk.web?.uri`. -/
def chunkUri (ch : Chunk) : Option (List Char) := ch.web.bind WebInfo.uri

/-- A mapped source entry (lines 141-145). -/
structure SourceEntry where
  title : List Char
  uri : List Char
  snippet : Json

/-- `parsedJson?.source_snippets?.[chunk.web?.title] || "Verified
real-time market quote."` — an absent `web` makes the lookup key the
string `"undefined"` (JS key coercion), and a falsy hit also falls back. -/
def snippetOf (payload : Json) (ch : Chunk) : Json :=
  let key := (chunkTitle ch).getD (strL "undefined")
  match (payload.getField (strL "source_snippets")).bind
      (fun sn => sn.getField key) with
  | some v =>
    if v.truthy then v else Json.str (strL "Verified real-time market quote.")
  | none => Json.str (strL "Verified real-time market quote.")

/-- The per-chunk source mapping (lines 141-145). -/
def mkSource (payload : Json) (ch : Chunk) : SourceEntry :=
  ⟨jsDefaultStr (chunkTitle ch) (strL "Market Data"),
   jsDefaultStr (chunkUri ch) (strL "#"),
   snippetOf payload ch⟩

/-- The object returned on success (lines 147-154):
`{...parsedJson, sources: sources.slice(0, 5), currency: currencyCode,
currencySymbol: currencyInfo.symbol}`.  Keys other than the three
overridden ones are read from `base` (the spread payload). -/
structure BudgetResultM where
  base : Json
  sources : List SourceEntry
  currency : List Char
  currencySymbol : List Char

/-- Result assembly (lines 140-154). -/
def assemble (payload : Json) (chunks : List Chunk) (cc sym : List Char) :
    BudgetResultM :=
  ⟨payload, (chunks.map (mkSource payload)).take 5, cc, sym⟩

/-- The `savingTips` field of the assembled result: it is not among the
overridden keys, so it is whatever the payload spread in (absent when the
payload omitted it). -/
def resultSavingTips (r : BudgetResultM) : Option Json :=
  r.base.getField (strL "savingTips")

/-! ## geminiService.ts: the fetch pipeline -/

/-- The data of a completed `generateContent` call: `response.text`
(possibly `undefined`) and the grounding chunks. -/
structure RespData where
  text : Option (List Char)
  chunks : List Chunk

/-- Lines 124-156, the body of the `try` block after the call returned:
extract the JSON (throwing kind `parsing` on failure), assemble the
result when the parsed value is truthy, else throw kind `empty`. -/
def innerBody (cc sym : List Char) (text : List Char) (chunks : List Chunk) :
    Except ServiceError BudgetResultM :=
  match extractJson text with
  | none =>
    .error ⟨strL "Failed to parse AI response data", ErrKind.parsing,
      Cause.parseExn⟩
  | some j =>
    if j.truthy then .ok (assemble j chunks cc sym)
    else .error ⟨strL "Empty response from AI", ErrKind.empty, Cause.undef⟩

/-- `fetchCityBudgetData` after the prompt is sent: `call` is the AI call
(an exception message, or the response), `online` is `navigator.onLine`.
Every exception escaping the `try` block — including the `parsing` /
`empty` `ServiceError`s thrown inside it — is caught by the outer `catch`
and re-classified by `classifyErr`. -/
def fetchCityBudgetData (cc sym : List Char)
    (call : Except (List Char) RespData) (online : Bool) :
    Except ServiceError BudgetResultM :=
  match call with
  | .error apiMsg => .error (classifyErr apiMsg online (Cause.apiExn apiMsg))
  | .ok resp =>
    match innerBody cc sym (jsDefaultStr resp.text []) resp.chunks with
    | .ok r => .ok r
    | .error e => .error (classifyErr e.message online (Cause.svcErr e.kind))

/-- The kind of a failed fetch, `none` on success. -/
def errKind : Except ServiceError BudgetResultM → Option ErrKind
  | .error e => some e.kind
  | .ok _ => none

/-! ## geminiService.ts: the suggestion client -/

/-- `SearchFilters` of src/types.ts. -/
structure SearchFiltersM where
  country : Option (List Char)
  region : Option (List Char)
  population : Option (List Char)
deriving DecidableEq, Repr

/-- `fetchCitySuggestions` (src/services/geminiService.ts, lines 16-58):
short-circuit on empty input with no country/region filter; otherwise run
the call, `JSON.parse(response.text || "[]")`, return the array's
elements, and return `[]` on any exception or non-array result. -/
def fetchCitySuggestions (input : List Char)
    (filters : Option SearchFiltersM)
    (call : Except (List Char) (Option (List Char))) : List Json :=
  if input.isEmpty && jsFalsyOpt (filters.bind SearchFiltersM.country) &&
      jsFalsyOpt (filters.bind SearchFiltersM.region) then []
  else
    match call with
    | .error _ => []
    | .ok textO =>
      match jsonParse (jsDefaultStr textO (strL "[]")) with
      | some (Json.arr xs) => xs
      | _ => []

/-! ## correctionService.ts: the correction store -/

/-- `UserCorrection` of src/services/correctionService.ts. -/
structure Correction where
  city : Option (List Char)
  category : List Char
  lang : List Char
  reason : List Char
  comment : List Char
  suggestedTranslation : Option (List Char)
  timestamp : Nat
deriving DecidableEq, Repr

/-- The `localStorage` slot under `urbancost_user_corrections`: absent,
holding text `JSON.parse` rejects, or holding a serialized list (the only
shape `saveCorrection` ever writes). -/
inductive Storage where
  | absent : Storage
  | corrupt : Storage
  | stored (l : List Correction) : Storage
deriving DecidableEq, Repr

/-- `slice(-50)`: the last `n` elements. -/
def lastN (n : Nat) (l : List α) : List α := l.drop (l.length - n)

/-- `getCorrections` (lines 22-30): parse the stored JSON, returning `[]`
when the slot is absent (falsy data) or when parsing throws. -/
def getCorrections : Storage → List Correction
  | .absent => []
  | .corrupt => []
  | .stored l => l

/-- `saveCorrection` (lines 14-20): append, keep the last 50, persist. -/
def saveCorrection (s : Storage) (c : Correction) : Storage :=
  .stored (lastN 50 (getCorrections s ++ [c]))

/-- `c.city?.toLowerCase() === city.toLowerCase()` (an unset city compares
`undefined === string`, i.e. false). -/
def cityLowerEq (o : Option (List Char)) (city : List Char) : Bool :=
  match o with
  | some s => lowerL s == lowerL city
  | none => false

/-- `getRelevantCorrections` (lines 32-38). -/
def getRelevantCorrections (s : Storage) (city lang : List Char) :
    List Correction :=
  (getCorrections s).filter (fun c =>
    (cityLowerEq c.city city || jsFalsyOpt c.city) && c.lang == lang)

/-! ## Embedding modes and concrete data for the round-trip claims -/

/-- A serialized object wrapped in a fenced ```` ```json ```` code block. -/
def embedFenced (v : Json) : List Char :=
  strL "```json" ++ '\n' :: (Json.ser v ++ '\n' :: strL "```")

/-- A serialized object embedded mid-paragraph with surrounding prose. -/
def proseEmbed (v : Json) : List Char :=
  strL "Here is the data: " ++ Json.ser v ++ strL " hope it helps"

/-- Shape of the text allowed to follow a serialized value inside a larger
serialization: nothing, or a delimiter of the enclosing structure. -/
def goodRest : List Char → Prop
  | [] => True
  | c :: _ => c = ',' ∨ c = '}' ∨ c = ']'

/-- Round-trip statement for one value: with enough fuel the parser
consumes exactly the serialization; the serialization contains no
backtick; and the fuel bound is dominated by the serialized length. -/
def PV (v : Json) : Prop :=
  (∀ fuel rest, goodRest rest → Json.size v ≤ fuel →
      pVal fuel (Json.ser v ++ rest) = some (v, rest)) ∧
  (∀ c ∈ Json.ser v, c ≠ '`') ∧
  Json.size v ≤ 2 * (Json.ser v).length

/-- Round-trip statement for a non-empty array item list. -/
def PItems (xs : List Json) : Prop :=
  (∀ fuel rest, xs ≠ [] → Json.sizeItems xs ≤ fuel →
      pItems fuel (Json.serItems xs ++ ']' :: rest) = some (xs, rest)) ∧
  (∀ c ∈ Json.serItems xs, c ≠ '`') ∧
  Json.sizeItems xs ≤ 2 + 2 * (Json.serItems xs).length

/-- Round-trip statement for a non-empty object member list. -/
def PMembers (kvs : List (List Char × Json)) : Prop :=
  (∀ fuel rest, kvs ≠ [] → Json.sizeMembers kvs ≤ fuel →
      pMembers fuel (Json.serMembers kvs ++ '}' :: rest) = some (kvs, rest)) ∧
  (∀ c ∈ Json.serMembers kvs, c ≠ '`') ∧
  Json.sizeMembers kvs ≤ 2 + 2 * (Json.serMembers kvs).length

/-- The representative object `{"a":1}` used for concrete checks. -/
def cexObj : Json := Json.obj [(strL "a", Json.num 1)]

/-- A concrete correction used to instantiate store theorems. -/
def corr0 : Correction :=
  ⟨none, strL "housing", strL "en", strL "too low", [], none, 0⟩

/-- A concrete city-specific English correction. -/
def corrEn : Correction :=
  ⟨some (strL "Paris"), strL "food", strL "en", strL "price off", [], none, 1⟩

/-! ## Basic lemmas about the string helpers -/

theorem skipWs_cons_of_not (c : Char) (t : List Char) (h : isWs c = false) :
    skipWs (c :: t) = c :: t := by
  simp [skipWs, List.dropWhile_cons, h]

theorem skipWs_quote (t : List Char) : skipWs ('"' :: t) = '"' :: t :=
  skipWs_cons_of_not _ t (by decide)

theorem skipWs_colon (t : List Char) : skipWs (':' :: t) = ':' :: t :=
  skipWs_cons_of_not _ t (by decide)

theorem skipWs_comma (t : List Char) : skipWs (',' :: t) = ',' :: t :=
  skipWs_cons_of_not _ t (by decide)

theorem skipWs_rbrack (t : List Char) : skipWs (']' :: t) = ']' :: t :=
  skipWs_cons_of_not _ t (by decide)

theorem skipWs_rbrace (t : List Char) : skipWs ('}' :: t) = '}' :: t :=
  skipWs_cons_of_not _ t (by decide)

theorem takeWhile_all_append (p : Char → Bool) (l r : List Char)
    (hl : ∀ c ∈ l, p c = true)
    (hr : ∀ c t, r = c :: t → p c = false) :
    (l ++ r).takeWhile p = l := by
  induction l with
  | nil =>
    cases r with
    | nil => rfl
    | cons c t => simp [List.takeWhile_cons, hr c t rfl]
  | cons c t ih =>
    have hc : p c = true := hl c (by simp)
    simp only [List.cons_append, List.takeWhile_cons, hc, if_true]
    rw [ih (fun x hx => hl x (by simp [hx]))]

theorem isPrefixOf_append_self (l r : List Char) :
    l.isPrefixOf (l ++ r) = true := by
  induction l with
  | nil => simp [List.isPrefixOf]
  | cons c t ih => simp [List.isPrefixOf, ih]

theorem splitOnFirst_self_append (pat r : List Char) :
    splitOnFirst pat (pat ++ r) = some ([], r) := by
  cases pat with
  | nil =>
    cases r with
    | nil => simp [splitOnFirst, List.isPrefixOf]
    | cons c t => simp [splitOnFirst, List.isPrefixOf]
  | cons p ps =>
    have hpre := isPrefixOf_append_self (p :: ps) r
    rw [List.cons_append] at hpre ⊢
    simp only [splitOnFirst, hpre, if_true]
    rw [← List.cons_append, List.drop_left]

theorem splitOnFirst_none_of_not_head (p0 : Char) (pt s : List Char)
    (h : ∀ c ∈ s, c ≠ p0) : splitOnFirst (p0 :: pt) s = none := by
  induction s with
  | nil => simp [splitOnFirst, List.isPrefixOf]
  | cons c t ih =>
    have hc : (p0 == c) = false := by
      simp only [beq_eq_false_iff_ne, ne_eq]
      exact fun he => (h c (by simp)) he.symm
    simp only [splitOnFirst, List.isPrefixOf, hc, Bool.false_and, Bool.false_eq_true,
      if_false]
    rw [ih (fun x hx => h x (by simp [hx]))]
    rfl

theorem splitOnFirst_append_of_no_head (p0 : Char) (pt l s : List Char)
    (h : ∀ c ∈ l, c ≠ p0) :
    splitOnFirst (p0 :: pt) (l ++ s)
      = (splitOnFirst (p0 :: pt) s).map (fun q => (l ++ q.1, q.2)) := by
  induction l with
  | nil =>
    simp only [List.nil_append]
    cases splitOnFirst (p0 :: pt) s <;> simp
  | cons c t ih =>
    have hc : (p0 == c) = false := by
      simp only [beq_eq_false_iff_ne, ne_eq]
      exact fun he => (h c (by simp)) he.symm
    simp only [List.cons_append, splitOnFirst, List.isPrefixOf, hc, Bool.false_and,
      Bool.false_eq_true, if_false, List.append_eq]
    rw [ih (fun x hx => h x (by simp [hx]))]
    cases splitOnFirst (p0 :: pt) s <;> simp

theorem extractFenced_none_of_no_tick (text : List Char)
    (h : ∀ c ∈ text, c ≠ '`') : extractFenced text = none := by
  unfold extractFenced
  rw [show strL "```json" = '`' :: strL "``json" from rfl,
    splitOnFirst_none_of_not_head '`' (strL "``json") text h]

/-! ## Digit lemmas -/

theorem digit_facts (c : Char) (h : isDigitC c = true) :
    isWs c = false ∧ c ≠ ']' ∧ c ≠ ',' ∧ c ≠ '}' ∧ c ≠ '{' ∧ c ≠ '[' ∧
    c ≠ '"' ∧ c ≠ 'n' ∧ c ≠ 't' ∧ c ≠ 'f' ∧ c ≠ '`' := by
  have h' : 48 ≤ c.toNat ∧ c.toNat ≤ 57 := by simpa [isDigitC] using h
  have hws : isWs c = false := by
    rcases Bool.eq_false_or_eq_true (isWs c) with h1 | h1
    · exfalso
      have h2 : ((c = ' ' ∨ c = '\n') ∨ c = '\t') ∨ c = '\r' := by
        simpa [isWs] using h1
      rcases h2 with ((rfl | rfl) | rfl) | rfl <;> exact absurd h' (by decide)
    · exact h1
  refine ⟨hws, ?_, ?_, ?_, ?_, ?_, ?_, ?_, ?_, ?_, ?_⟩ <;>
    (rintro rfl; exact absurd h' (by decide))

theorem digitChar_val (d : Nat) (h : d < 10) : (digitChar d).toNat - 48 = d := by
  interval_cases d <;> rfl

theorem isDigitC_digitChar (d : Nat) (h : d < 10) :
    isDigitC (digitChar d) = true := by
  interval_cases d <;> rfl

theorem natChars_all_digit (n : Nat) : ∀ c ∈ natChars n, isDigitC c = true := by
  intro c hc
  unfold natChars at hc
  by_cases h0 : n = 0
  · simp [h0] at hc
    subst hc; rfl
  · simp only [h0, if_false, List.mem_reverse, List.mem_map] at hc
    obtain ⟨d, hd, rfl⟩ := hc
    exact isDigitC_digitChar d (Nat.digits_lt_base (by norm_num) hd)

theorem natChars_ne_nil (n : Nat) : natChars n ≠ [] := by
  unfold natChars
  by_cases h0 : n = 0
  · simp [h0]
  · simp only [h0, if_false, ne_eq, List.reverse_eq_nil_iff, List.map_eq_nil_iff]
    exact Nat.digits_ne_nil_iff_ne_zero.mpr h0

theorem foldl_digitChar_eq (M : List Nat) (h : ∀ d ∈ M, d < 10) :
    ∀ a : Nat,
      M.foldl (fun a d => 10 * a + ((digitChar d).toNat - 48)) a
        = M.foldl (fun a d => 10 * a + d) a := by
  induction M with
  | nil => intro a; rfl
  | cons d t ih =>
    intro a
    rw [List.foldl_cons, List.foldl_cons, digitChar_val d (h d (by simp))]
    exact ih (fun x hx => h x (by simp [hx])) _

theorem foldl_reverse_ofDigits (L : List Nat) :
    L.reverse.foldl (fun a d => 10 * a + d) 0 = Nat.ofDigits 10 L := by
  induction L with
  | nil => rfl
  | cons d t ih =>
    rw [List.reverse_cons, List.foldl_append, ih, Nat.ofDigits_cons]
    simp [List.foldl_cons]
    ring

theorem digitsVal_natChars (n : Nat) : digitsVal (natChars n) = n := by
  unfold natChars digitsVal
  by_cases h0 : n = 0
  · subst h0; rfl
  · simp only [h0, if_false]
    rw [← List.map_reverse, List.foldl_map]
    have hlt : ∀ d ∈ Nat.digits 10 n, d < 10 :=
      fun d hd => Nat.digits_lt_base (by norm_num) hd
    rw [foldl_digitChar_eq (Nat.digits 10 n).reverse
        (fun d hd => hlt d (List.mem_reverse.mp hd)), foldl_reverse_ofDigits,
      Nat.ofDigits_digits]

/-! ## Boundary characters of serializations -/

theorem ser_head (v : Json) :
    ∃ c t, Json.ser v = c :: t ∧ isWs c = false ∧ c ≠ ']' ∧ c ≠ '}' := by
  cases v with
  | null => exact ⟨'n', _, rfl, by decide, by decide, by decide⟩
  | bool b =>
    cases b with
    | false => exact ⟨'f', _, rfl, by decide, by decide, by decide⟩
    | true => exact ⟨'t', _, rfl, by decide, by decide, by decide⟩
  | num n =>
    cases hn : natChars n with
    | nil => exact absurd hn (natChars_ne_nil n)
    | cons c t =>
      have hd : isDigitC c = true :=
        natChars_all_digit n c (by rw [hn]; exact List.mem_cons_self c t)
      obtain ⟨hws, hrb, _, hcb, _⟩ := digit_facts c hd
      exact ⟨c, t, by simp [Json.ser, hn], hws, hrb, hcb⟩
  | str s => exact ⟨'"', _, rfl, by decide, by decide, by decide⟩
  | arr xs => exact ⟨'[', _, rfl, by decide, by decide, by decide⟩
  | obj kvs => exact ⟨'{', _, rfl, by decide, by decide, by decide⟩

theorem ser_ne_nil (v : Json) : Json.ser v ≠ [] := by
  obtain ⟨c, t, hv, _⟩ := ser_head v
  simp [hv]

theorem skipWs_ser (v : Json) (a : List Char) :
    skipWs (Json.ser v ++ a) = Json.ser v ++ a := by
  obtain ⟨c, t, hv, hws, _⟩ := ser_head v
  rw [hv, List.cons_append, skipWs_cons_of_not c (t ++ a) hws]

theorem ser_last (v : Json) :
    ∃ c t, (Json.ser v).reverse = c :: t ∧ isWs c = false := by
  cases v with
  | null => exact ⟨'l', ['l', 'u', 'n'], by decide, by decide⟩
  | bool b =>
    cases b with
    | false => exact ⟨'e', ['s', 'l', 'a', 'f'], by decide, by decide⟩
    | true => exact ⟨'e', ['u', 'r', 't'], by decide, by decide⟩
  | num n =>
    have hne : natChars n ≠ [] := natChars_ne_nil n
    cases hn : (natChars n).reverse with
    | nil => exact absurd (by simpa using hn) hne
    | cons c t =>
      have hc : c ∈ natChars n := by
        rw [← List.mem_reverse, hn]; exact List.mem_cons_self c t
      have hd := natChars_all_digit n c hc
      exact ⟨c, t, by simp [Json.ser, hn], (digit_facts c hd).1⟩
  | str s =>
    refine ⟨'"', (s ++ ['"']).reverse.tail ++ ['"'], ?_, by decide⟩
    have h1 : (s ++ ['"']).reverse = '"' :: s.reverse := by simp
    show ('"' :: (s ++ ['"'])).reverse = _
    rw [List.reverse_cons, h1]
    simp
  | arr xs =>
    refine ⟨']', (Json.serItems xs).reverse ++ ['['], ?_, by decide⟩
    show ('[' :: (Json.serItems xs ++ [']'])).reverse = _
    simp
  | obj kvs =>
    refine ⟨'}', (Json.serMembers kvs).reverse ++ ['{'], ?_, by decide⟩
    show ('{' :: (Json.serMembers kvs ++ ['}'])).reverse = _
    simp

/-! ## Parser stepping lemmas -/

theorem expectLit_append (lit r : List Char) (v : Json) :
    expectLit lit (lit ++ r) v = some (v, r) := by
  simp [expectLit, isPrefixOf_append_self, List.drop_left]

theorem pStr_append (s r : List Char) (hs : ∀ c ∈ s, (c != '"') = true) :
    pStr (s ++ '"' :: r) = some (s, r) := by
  have ht : (s ++ '"' :: r).takeWhile (fun c => c != '"') = s :=
    takeWhile_all_append _ s ('"' :: r) hs
      (fun c t h => by injection h with h1 h2; subst h1; decide)
  simp only [pStr, ht, List.drop_left]

theorem pVal_cons (f : Nat) (c : Char) (r : List Char) (hws : isWs c = false) :
    pVal (f + 1) (c :: r) =
      (if c = '{' then pObjBody f (skipWs r)
       else if c = '[' then pArrBody f (skipWs r)
       else if c = '"' then (pStr r).map (fun p => (Json.str p.1, p.2))
       else if c = 'n' then expectLit ['u', 'l', 'l'] r Json.null
       else if c = 't' then expectLit ['r', 'u', 'e'] r (Json.bool true)
       else if c = 'f' then expectLit ['a', 'l', 's', 'e'] r (Json.bool false)
       else
         let ds := (c :: r).takeWhile isDigitC
         if ds.isEmpty then none
         else some (Json.num (digitsVal ds), (c :: r).drop ds.length)) := by
  simp only [pVal, skipWs_cons_of_not c r hws]

theorem size_pos (v : Json) : 1 ≤ Json.size v := by
  cases v <;> simp [Json.size] <;> omega

theorem plainChar_ne_quote (c : Char) (h : plainChar c = true) :
    (c != '"') = true := by
  simp only [plainChar, Bool.and_eq_true] at h
  exact h.1.1.1

theorem plainChar_ne_tick (c : Char) (h : plainChar c = true) : c ≠ '`' := by
  simp only [plainChar, Bool.and_eq_true] at h
  simpa using h.1.2

/-! ## The round-trip induction -/

theorem parseRound : ∀ n : Nat,
    (∀ v : Json, Json.size v ≤ n → Json.wf v = true → PV v) ∧
    (∀ xs : List Json, Json.sizeItems xs ≤ n → Json.wfItems xs = true →
      PItems xs) ∧
    (∀ kvs : List (List Char × Json), Json.sizeMembers kvs ≤ n →
      Json.wfMembers kvs = true → PMembers kvs) := by
  intro n
  induction n with
  | zero =>
    refine ⟨?_, ?_, ?_⟩
    · intro v hv _
      exact absurd hv (by have := size_pos v; omega)
    · intro xs hx _
      cases xs with
      | nil =>
        exact ⟨fun fuel rest hne _ => absurd rfl hne,
          by simp [Json.serItems], by simp [Json.sizeItems]⟩
      | cons x xs' =>
        exfalso
        have h1 : 1 + Json.size x + Json.sizeItems xs' ≤ 0 := by
          simp only [Json.sizeItems] at hx
          exact hx
        omega
    · intro kvs hk _
      cases kvs with
      | nil =>
        exact ⟨fun fuel rest hne _ => absurd rfl hne,
          by simp [Json.serMembers], by simp [Json.sizeMembers]⟩
      | cons kv kvs' =>
        obtain ⟨k, v⟩ := kv
        exfalso
        have h1 : 1 + Json.size v + Json.sizeMembers kvs' ≤ 0 := by
          simp only [Json.sizeMembers] at hk
          exact hk
        omega
  | succ n ih =>
    obtain ⟨ihV, ihI, ihM⟩ := ih
    refine ⟨?_, ?_, ?_⟩
    · -- values
      intro v hv hwf
      cases v with
      | null =>
        refine ⟨?_, by decide, by decide⟩
        intro fuel rest hgr hfuel
        obtain ⟨f, rfl⟩ : ∃ f, fuel = f + 1 := by
          have h1 : 1 ≤ fuel := by simpa [Json.size] using hfuel
          exact ⟨fuel - 1, by omega⟩
        show pVal (f + 1) (strL "null" ++ rest) = some (Json.null, rest)
        rw [show strL "null" ++ rest = 'n' :: (['u', 'l', 'l'] ++ rest) from rfl,
          pVal_cons f 'n' _ (by decide)]
        simpa using expectLit_append ['u', 'l', 'l'] rest Json.null
      | bool b =>
        refine ⟨?_, by cases b <;> decide, by cases b <;> decide⟩
        intro fuel rest hgr hfuel
        obtain ⟨f, rfl⟩ : ∃ f, fuel = f + 1 := by
          have h1 : 1 ≤ fuel := le_trans (size_pos (Json.bool b)) hfuel
          exact ⟨fuel - 1, by omega⟩
        cases b with
        | true =>
          show pVal (f + 1) (strL "true" ++ rest) = _
          rw [show strL "true" ++ rest = 't' :: (['r', 'u', 'e'] ++ rest) from rfl,
            pVal_cons f 't' _ (by decide)]
          simpa using expectLit_append ['r', 'u', 'e'] rest (Json.bool true)
        | false =>
          show pVal (f + 1) (strL "false" ++ rest) = _
          rw [show strL "false" ++ rest = 'f' :: (['a', 'l', 's', 'e'] ++ rest)
              from rfl,
            pVal_cons f 'f' _ (by decide)]
          simpa using expectLit_append ['a', 'l', 's', 'e'] rest (Json.bool false)
      | num m =>
        refine ⟨?_, ?_, ?_⟩
        · intro fuel rest hgr hfuel
          obtain ⟨f, rfl⟩ : ∃ f, fuel = f + 1 := by
            have h1 : 1 ≤ fuel := by simpa [Json.size] using hfuel
            exact ⟨fuel - 1, by omega⟩
          cases hn : natChars m with
          | nil => exact absurd hn (natChars_ne_nil m)
          | cons c t =>
            have hd : isDigitC c = true :=
              natChars_all_digit m c (by rw [hn]; exact List.mem_cons_self c t)
            obtain ⟨hws, _, _, _, hlb, hlsq, hq, hn2, ht2, hf2, _⟩ := digit_facts c hd
            show pVal (f + 1) (natChars m ++ rest) = _
            rw [hn, List.cons_append, pVal_cons f c (t ++ rest) hws,
              if_neg hlb, if_neg hlsq, if_neg hq, if_neg hn2, if_neg ht2, if_neg hf2]
            have hall : ∀ x ∈ c :: t, isDigitC x = true := by
              intro x hx
              exact natChars_all_digit m x (by rw [hn]; exact hx)
            have hrest : ∀ c2 t2, rest = c2 :: t2 → isDigitC c2 = false := by
              intro c2 t2 hr2
              subst hr2
              have hgr' : c2 = ',' ∨ c2 = '}' ∨ c2 = ']' := hgr
              rcases hgr' with rfl | rfl | rfl <;> decide
            have hds : (c :: (t ++ rest)).takeWhile isDigitC = c :: t := by
              have := takeWhile_all_append isDigitC (c :: t) rest hall hrest
              rwa [List.cons_append] at this
            have heq : c :: (t ++ rest) = natChars m ++ rest := by
              rw [hn, List.cons_append]
            simp only [hds, List.isEmpty_cons, Bool.false_eq_true, if_false]
            rw [show digitsVal (c :: t) = m from by rw [← hn]; exact digitsVal_natChars m,
              ← hn, heq, List.drop_left]
        · intro c hc
          have hd := natChars_all_digit m c hc
          exact (digit_facts c hd).2.2.2.2.2.2.2.2.2.2
        · have hne := natChars_ne_nil m
          have hlen : 1 ≤ (natChars m).length := by
            cases hnn : natChars m with
            | nil => exact absurd hnn hne
            | cons a b => simp
          show Json.size (Json.num m) ≤ 2 * (Json.ser (Json.num m)).length
          simp only [Json.size, Json.ser]
          omega
      | str s =>
        have hs : ∀ c ∈ s, plainChar c = true := by
          simpa [Json.wf, List.all_eq_true] using hwf
        refine ⟨?_, ?_, ?_⟩
        · intro fuel rest hgr hfuel
          obtain ⟨f, rfl⟩ : ∃ f, fuel = f + 1 := by
            have h1 : 1 ≤ fuel := by simpa [Json.size] using hfuel
            exact ⟨fuel - 1, by omega⟩
          have harr : Json.ser (Json.str s) ++ rest = '"' :: (s ++ '"' :: rest) := by
            show ('"' :: (s ++ ['"'])) ++ rest = _
            simp
          rw [harr, pVal_cons f '"' _ (by decide)]
          simp only [show ('"' : Char) = '{' ↔ False by simp, if_false,
            show ('"' : Char) = '[' ↔ False by simp, if_true, if_pos rfl]
          rw [pStr_append s rest (fun c hc => plainChar_ne_quote c (hs c hc))]
          simp
        · intro c hc
          have hc' : c = '"' ∨ c ∈ s ∨ c = '"' := by
            have : c ∈ '"' :: (s ++ ['"']) := hc
            simpa [List.mem_cons, List.mem_append] using this
          rcases hc' with rfl | hc' | rfl
          · decide
          · exact plainChar_ne_tick c (hs c hc')
          · decide
        · show Json.size (Json.str s) ≤ 2 * (Json.ser (Json.str s)).length
          simp only [Json.size, Json.ser, List.length_cons, List.length_append,
            List.length_singleton]
          omega
      | arr xs =>
        have hwf' : Json.wfItems xs = true := by simpa [Json.wf] using hwf
        have hsz : 2 + Json.sizeItems xs ≤ n + 1 := by simpa [Json.size] using hv
        refine ⟨?_, ?_, ?_⟩
        · intro fuel rest hgr hfuel
          have h2 : 2 + Json.sizeItems xs ≤ fuel := by simpa [Json.size] using hfuel
          obtain ⟨f, rfl⟩ : ∃ f, fuel = f + 1 := ⟨fuel - 1, by omega⟩
          have harr : Json.ser (Json.arr xs) ++ rest
              = '[' :: (Json.serItems xs ++ ']' :: rest) := by
            show ('[' :: (Json.serItems xs ++ [']'])) ++ rest = _
            simp
          rw [harr, pVal_cons f '[' _ (by decide)]
          simp only [show ('[' : Char) = '{' ↔ False by simp, if_false, if_pos rfl]
          cases xs with
          | nil =>
            rw [show Json.serItems [] = [] from rfl]
            simp only [List.nil_append]
            rw [skipWs_cons_of_not ']' rest (by decide)]
            obtain ⟨f', rfl⟩ : ∃ f', f = f' + 1 := ⟨f - 1, by omega⟩
            simp [pArrBody]
          | cons x xs' =>
            obtain ⟨c, t, hserx, hws, hrb, _⟩ := ser_head x
            have hserX : Json.serItems (x :: xs') ++ ']' :: rest
                = c :: (t ++ ((if xs'.isEmpty then [] else ',' :: Json.serItems xs')
                    ++ ']' :: rest)) := by
              show (Json.ser x ++ _) ++ _ = _
              rw [hserx]
              simp
            rw [hserX, skipWs_cons_of_not c _ hws]
            obtain ⟨f', rfl⟩ : ∃ f', f = f' + 1 := ⟨f - 1, by
              have : 1 ≤ Json.sizeItems (x :: xs') := by simp [Json.sizeItems]; omega
              omega⟩
            simp only [pArrBody, if_neg hrb]
            rw [← hserX]
            have hIH := (ihI (x :: xs') (by omega) hwf').1
            rw [hIH f' rest (by simp) (by omega)]
            rfl
        · intro c hc
          have hc' : c = '[' ∨ c ∈ Json.serItems xs ∨ c = ']' := by
            have : c ∈ '[' :: (Json.serItems xs ++ [']']) := hc
            simpa [List.mem_cons, List.mem_append] using this
          rcases hc' with rfl | hc' | rfl
          · decide
          · exact (ihI xs (by omega) hwf').2.1 c hc'
          · decide
        · have hb := (ihI xs (by omega) hwf').2.2
          show Json.size (Json.arr xs) ≤ 2 * (Json.ser (Json.arr xs)).length
          simp only [Json.size, Json.ser, List.length_cons, List.length_append,
            List.length_singleton]
          omega
      | obj kvs =>
        have hwf' : Json.wfMembers kvs = true := by simpa [Json.wf] using hwf
        have hsz : 2 + Json.sizeMembers kvs ≤ n + 1 := by simpa [Json.size] using hv
        refine ⟨?_, ?_, ?_⟩
        · intro fuel rest hgr hfuel
          have h2 : 2 + Json.sizeMembers kvs ≤ fuel := by simpa [Json.size] using hfuel
          obtain ⟨f, rfl⟩ : ∃ f, fuel = f + 1 := ⟨fuel - 1, by omega⟩
          have harr : Json.ser (Json.obj kvs) ++ rest
              = '{' :: (Json.serMembers kvs ++ '}' :: rest) := by
            show ('{' :: (Json.serMembers kvs ++ ['}'])) ++ rest = _
            simp
          rw [harr, pVal_cons f '{' _ (by decide)]
          simp only [if_pos rfl]
          cases kvs with
          | nil =>
            rw [show Json.serMembers [] = [] from rfl]
            simp only [List.nil_append]
            rw [skipWs_cons_of_not '}' rest (by decide)]
            obtain ⟨f', rfl⟩ : ∃ f', f = f' + 1 := ⟨f - 1, by omega⟩
            simp [pObjBody]
          | cons kv kvs' =>
            obtain ⟨k, v⟩ := kv
            have hserX : Json.serMembers ((k, v) :: kvs') ++ '}' :: rest
                = '"' :: ((k ++ '"' :: ':' :: Json.ser v
                    ++ (if kvs'.isEmpty then [] else ',' :: Json.serMembers kvs'))
                    ++ '}' :: rest) := by
              show ('"' :: (k ++ '"' :: ':' :: Json.ser v ++ _)) ++ _ = _
              simp
            rw [hserX, skipWs_cons_of_not '"' _ (by decide)]
            obtain ⟨f', rfl⟩ : ∃ f', f = f' + 1 := ⟨f - 1, by
              have : 1 ≤ Json.sizeMembers ((k, v) :: kvs') := by
                simp [Json.sizeMembers]; omega
              omega⟩
            simp only [pObjBody, show ('"' : Char) = '}' ↔ False by simp, if_false]
            rw [← hserX]
            have hIH := (ihM ((k, v) :: kvs') (by omega) hwf').1
            rw [hIH f' rest (by simp) (by omega)]
            rfl
        · intro c hc
          have hc' : c = '{' ∨ c ∈ Json.serMembers kvs ∨ c = '}' := by
            have : c ∈ '{' :: (Json.serMembers kvs ++ ['}']) := hc
            simpa [List.mem_cons, List.mem_append] using this
          rcases hc' with rfl | hc' | rfl
          · decide
          · exact (ihM kvs (by omega) hwf').2.1 c hc'
          · decide
        · have hb := (ihM kvs (by omega) hwf').2.2
          show Json.size (Json.obj kvs) ≤ 2 * (Json.ser (Json.obj kvs)).length
          simp only [Json.size, Json.ser, List.length_cons, List.length_append,
            List.length_singleton]
          omega
    · -- item lists
      intro xs hx hwfI
      cases xs with
      | nil =>
        exact ⟨fun fuel rest hne _ => absurd rfl hne,
          by simp [Json.serItems], by simp [Json.sizeItems]⟩
      | cons x xs' =>
        have hwfx : Json.wf x = true ∧ Json.wfItems xs' = true := by
          simpa [Json.wfItems, Bool.and_eq_true] using hwfI
        have hx' : 1 + Json.size x + Json.sizeItems xs' ≤ n + 1 := by
          simpa [Json.sizeItems] using hx
        have hszx : Json.size x ≤ n := by have := size_pos x; omega
        refine ⟨?_, ?_, ?_⟩
        · intro fuel rest hne hfuel
          have hf1 : 1 + Json.size x + Json.sizeItems xs' ≤ fuel := by
            simpa [Json.sizeItems] using hfuel
          obtain ⟨f, rfl⟩ : ∃ f, fuel = f + 1 := ⟨fuel - 1, by omega⟩
          cases xs' with
          | nil =>
            have hser : Json.serItems [x] ++ ']' :: rest
                = Json.ser x ++ ']' :: rest := by
              simp [Json.serItems]
            have hpv := (ihV x hszx hwfx.1).1 f (']' :: rest)
              (by simp [goodRest]) (by omega)
            rw [hser]
            simp only [pItems, hpv, skipWs_rbrack]
            rfl
          | cons y ys =>
            have hser : Json.serItems (x :: y :: ys) ++ ']' :: rest
                = Json.ser x ++ ',' :: (Json.serItems (y :: ys) ++ ']' :: rest) := by
              show (Json.ser x ++ _) ++ _ = _
              simp
            have hpv := (ihV x hszx hwfx.1).1 f
              (',' :: (Json.serItems (y :: ys) ++ ']' :: rest))
              (by simp [goodRest]) (by omega)
            have hIH := (ihI (y :: ys)
              (by have := size_pos x; omega) hwfx.2).1
            rw [hser]
            simp only [pItems, hpv, skipWs_comma]
            rw [hIH f rest (by simp) (by have := size_pos x; omega)]
            rfl
        · intro c hc
          have hc' : c ∈ Json.ser x
              ∨ c ∈ (if xs'.isEmpty then [] else ',' :: Json.serItems xs') := by
            have : c ∈ Json.ser x
                ++ (if xs'.isEmpty then [] else ',' :: Json.serItems xs') := hc
            simpa [List.mem_append] using this
          rcases hc' with hc' | hc'
          · exact (ihV x hszx hwfx.1).2.1 c hc'
          · cases xs' with
            | nil => simp at hc'
            | cons y ys =>
              simp only [List.isEmpty_cons, Bool.false_eq_true, if_false,
                List.mem_cons] at hc'
              rcases hc' with rfl | hc'
              · decide
              · exact (ihI (y :: ys) (by have := size_pos x; omega) hwfx.2).2.1 c hc'
        · have hbx := (ihV x hszx hwfx.1).2.2
          cases xs' with
          | nil =>
            show Json.sizeItems [x] ≤ 2 + 2 * (Json.serItems [x]).length
            simp only [Json.sizeItems, Json.serItems, List.isEmpty_nil, if_true,
              List.append_nil]
            omega
          | cons y ys =>
            have hbi := (ihI (y :: ys) (by have := size_pos x; omega) hwfx.2).2.2
            have hserL : Json.serItems (x :: y :: ys)
                = Json.ser x ++ ',' :: Json.serItems (y :: ys) := by
              simp [Json.serItems]
            show Json.sizeItems (x :: y :: ys)
                ≤ 2 + 2 * (Json.serItems (x :: y :: ys)).length
            rw [hserL, show Json.sizeItems (x :: y :: ys)
                = 1 + Json.size x + Json.sizeItems (y :: ys) from rfl]
            simp only [List.length_append, List.length_cons]
            omega
    · -- member lists
      intro kvs hk hwfM
      cases kvs with
      | nil =>
        exact ⟨fun fuel rest hne _ => absurd rfl hne,
          by simp [Json.serMembers], by simp [Json.sizeMembers]⟩
      | cons kv kvs' =>
        obtain ⟨k, v⟩ := kv
        have hwfx : (k.all plainChar = true ∧ Json.wf v = true)
            ∧ Json.wfMembers kvs' = true := by
          simpa [Json.wfMembers, Bool.and_eq_true] using hwfM
        have hk' : 1 + Json.size v + Json.sizeMembers kvs' ≤ n + 1 := by
          simpa [Json.sizeMembers] using hk
        have hszv : Json.size v ≤ n := by have := size_pos v; omega
        have hkplain : ∀ c ∈ k, plainChar c = true := by
          simpa [List.all_eq_true] using hwfx.1.1
        refine ⟨?_, ?_, ?_⟩
        · intro fuel rest hne hfuel
          have hf1 : 1 + Json.size v + Json.sizeMembers kvs' ≤ fuel := by
            simpa [Json.sizeMembers] using hfuel
          obtain ⟨f, rfl⟩ : ∃ f, fuel = f + 1 := ⟨fuel - 1, by omega⟩
          cases kvs' with
          | nil =>
            have hser : Json.serMembers [(k, v)] ++ '}' :: rest
                = '"' :: (k ++ '"' :: ':' :: (Json.ser v ++ '}' :: rest)) := by
              show ('"' :: (k ++ '"' :: ':' :: Json.ser v ++ _)) ++ _ = _
              simp
            have hps := pStr_append k (':' :: (Json.ser v ++ '}' :: rest))
              (fun c hc => plainChar_ne_quote c (hkplain c hc))
            have hpv := (ihV v hszv hwfx.1.2).1 f ('}' :: rest)
              (by simp [goodRest]) (by omega)
            rw [hser]
            simp only [pMembers, skipWs_quote, hps, skipWs_colon, hpv, skipWs_rbrace]
            rfl
          | cons kv2 kvs'' =>
            have hser : Json.serMembers ((k, v) :: kv2 :: kvs'') ++ '}' :: rest
                = '"' :: (k ++ '"' :: ':' :: (Json.ser v
                    ++ ',' :: (Json.serMembers (kv2 :: kvs'') ++ '}' :: rest))) := by
              show ('"' :: (k ++ '"' :: ':' :: Json.ser v ++ _)) ++ _ = _
              obtain ⟨k2, v2⟩ := kv2
              simp
            have hps := pStr_append k
              (':' :: (Json.ser v
                ++ ',' :: (Json.serMembers (kv2 :: kvs'') ++ '}' :: rest)))
              (fun c hc => plainChar_ne_quote c (hkplain c hc))
            have hpv := (ihV v hszv hwfx.1.2).1 f
              (',' :: (Json.serMembers (kv2 :: kvs'') ++ '}' :: rest))
              (by simp [goodRest]) (by omega)
            have hIH := (ihM (kv2 :: kvs'') (by have := size_pos v; omega) hwfx.2).1
            rw [hser]
            simp only [pMembers, skipWs_quote, hps, skipWs_colon, hpv, skipWs_comma]
            rw [hIH f rest (by simp) (by have := size_pos v; omega)]
            rfl
        · intro c hc
          have hc' : c = '"' ∨ (c ∈ k ∨ c = '"' ∨ c = ':' ∨ c ∈ Json.ser v
              ∨ c ∈ (if kvs'.isEmpty then [] else ',' :: Json.serMembers kvs')) := by
            have hmem : c ∈ '"' :: (k ++ '"' :: ':' :: Json.ser v
                ++ (if kvs'.isEmpty then [] else ',' :: Json.serMembers kvs')) := hc
            simpa [List.mem_cons, List.mem_append, or_assoc] using hmem
          rcases hc' with rfl | hc' | rfl | rfl | hc' | hc'
          · decide
          · exact plainChar_ne_tick c (hkplain c hc')
          · decide
          · decide
          · exact (ihV v hszv hwfx.1.2).2.1 c hc'
          · cases kvs' with
            | nil => simp at hc'
            | cons kv2 kvs'' =>
              simp only [List.isEmpty_cons, Bool.false_eq_true, if_false,
                List.mem_cons] at hc'
              rcases hc' with rfl | hc'
              · decide
              · exact (ihM (kv2 :: kvs'')
                  (by have := size_pos v; omega) hwfx.2).2.1 c hc'
        · have hbv := (ihV v hszv hwfx.1.2).2.2
          cases kvs' with
          | nil =>
            show Json.sizeMembers [(k, v)] ≤ 2 + 2 * (Json.serMembers [(k, v)]).length
            simp only [Json.sizeMembers, Json.serMembers, List.isEmpty_nil, if_true,
              List.append_nil, List.length_cons, List.length_append]
            omega
          | cons kv2 kvs'' =>
            have hbm := (ihM (kv2 :: kvs'')
              (by have := size_pos v; omega) hwfx.2).2.2
            have hserL : Json.serMembers ((k, v) :: kv2 :: kvs'')
                = '"' :: k ++ '"' :: ':' :: Json.ser v
                    ++ ',' :: Json.serMembers (kv2 :: kvs'') := by
              simp [Json.serMembers]
            show Json.sizeMembers ((k, v) :: kv2 :: kvs'')
                ≤ 2 + 2 * (Json.serMembers ((k, v) :: kv2 :: kvs'')).length
            rw [hserL, show Json.sizeMembers ((k, v) :: kv2 :: kvs'')
                = 1 + Json.size v + Json.sizeMembers (kv2 :: kvs'') from rfl]
            simp only [List.length_append, List.length_cons]
            omega

/-! ## The round-trip, packaged -/

theorem pVal_ser (v : Json) (hwf : Json.wf v = true) (fuel : Nat)
    (rest : List Char) (hgr : goodRest rest) (hfuel : Json.size v ≤ fuel) :
    pVal fuel (Json.ser v ++ rest) = some (v, rest) :=
  ((parseRound (Json.size v)).1 v le_rfl hwf).1 fuel rest hgr hfuel

theorem ser_no_tick (v : Json) (hwf : Json.wf v = true) :
    ∀ c ∈ Json.ser v, c ≠ '`' :=
  ((parseRound (Json.size v)).1 v le_rfl hwf).2.1

theorem ser_size_le (v : Json) (hwf : Json.wf v = true) :
    Json.size v ≤ 2 * (Json.ser v).length :=
  ((parseRound (Json.size v)).1 v le_rfl hwf).2.2

/-- The model of `JSON.parse` inverts the model of `JSON.stringify`. -/
theorem jsonParse_ser (v : Json) (hwf : Json.wf v = true) :
    jsonParse (Json.ser v) = some v := by
  unfold jsonParse
  have h := pVal_ser v hwf (3 * (Json.ser v).length + 3) [] trivial
    (by have := ser_size_le v hwf; omega)
  rw [List.append_nil] at h
  rw [h]
  rfl

/-- Direct mode: the serialization alone parses back (no fence is
sniffed, because the serialization contains no backtick). -/
theorem extractJson_ser (v : Json) (hwf : Json.wf v = true) :
    extractJson (Json.ser v) = some v := by
  unfold extractJson
  rw [extractFenced_none_of_no_tick _ (ser_no_tick v hwf)]
  exact jsonParse_ser v hwf

theorem trimWs_nl_wrap (v : Json) :
    trimWs ('\n' :: (Json.ser v ++ ['\n'])) = Json.ser v := by
  obtain ⟨c, t, hh, hwsh, _, _⟩ := ser_head v
  obtain ⟨c', t', hl, hwsl⟩ := ser_last v
  unfold trimWs
  have h1 : ('\n' :: (Json.ser v ++ ['\n'])).dropWhile isWs
      = Json.ser v ++ ['\n'] := by
    rw [List.dropWhile_cons]
    simp only [show isWs '\n' = true from rfl, if_true]
    rw [hh, List.cons_append, List.dropWhile_cons]
    simp only [hwsh, Bool.false_eq_true, if_false, ← List.cons_append]
  rw [h1]
  have h2 : (Json.ser v ++ ['\n']).reverse = '\n' :: (Json.ser v).reverse := by
    simp
  rw [h2, List.dropWhile_cons]
  simp only [show isWs '\n' = true from rfl, if_true]
  rw [hl, List.dropWhile_cons]
  simp only [hwsl, Bool.false_eq_true, if_false, ← hl, List.reverse_reverse]

/-- The fenced-block regex applied to the fenced embedding captures
exactly the serialization. -/
theorem extractFenced_embed (v : Json) (hwf : Json.wf v = true) :
    extractFenced (embedFenced v) = some (Json.ser v) := by
  have hshape : '\n' :: (Json.ser v ++ '\n' :: strL "```")
      = ('\n' :: (Json.ser v ++ ['\n'])) ++ strL "```" := by
    simp
  have hno : ∀ c ∈ '\n' :: (Json.ser v ++ ['\n']), c ≠ '`' := by
    intro c hc
    simp only [List.mem_cons, List.mem_append, List.mem_singleton] at hc
    rcases hc with rfl | hc | rfl | h0
    · decide
    · exact ser_no_tick v hwf c hc
    · decide
    · simp at h0
  have h1 := splitOnFirst_self_append (strL "```json")
    ('\n' :: (Json.ser v ++ '\n' :: strL "```"))
  have h2 : splitOnFirst (strL "```") ('\n' :: (Json.ser v ++ '\n' :: strL "```"))
      = some ('\n' :: (Json.ser v ++ ['\n']), []) := by
    rw [hshape, show strL "```" = '`' :: strL "``" from rfl,
      splitOnFirst_append_of_no_head '`' (strL "``") _ _ hno,
      show splitOnFirst ('`' :: strL "``") ('`' :: strL "``") = some ([], [])
        from rfl]
    simp
  unfold extractFenced embedFenced
  simp only [h1, h2]
  rw [trimWs_nl_wrap v]

/-- Fenced mode: a fenced embedding of the serialization parses back. -/
theorem extractJson_fenced (v : Json) (hwf : Json.wf v = true) :
    extractJson (embedFenced v) = some v := by
  have hne : (Json.ser v).isEmpty = false := by
    obtain ⟨c, t, hh, _⟩ := ser_head v
    rw [hh]
    rfl
  unfold extractJson
  simp only [extractFenced_embed v hwf, hne, Bool.false_eq_true, if_false]
  exact jsonParse_ser v hwf

/-- Prose mode: surrounding prose defeats the extraction — there is no
fenced block and the direct `JSON.parse` rejects the leading prose
character (the code has no first-`{`-to-last-`}` fallback). -/
theorem extractJson_prose (v : Json) (hwf : Json.wf v = true) :
    extractJson (proseEmbed v) = none := by
  unfold extractJson proseEmbed
  have hno : ∀ c ∈ strL "Here is the data: " ++ Json.ser v
      ++ strL " hope it helps", c ≠ '`' := by
    intro c hc
    simp only [List.mem_append] at hc
    rcases hc with (hc | hc) | hc
    · revert hc
      revert c
      decide
    · exact ser_no_tick v hwf c hc
    · revert hc
      revert c
      decide
  rw [extractFenced_none_of_no_tick _ hno]
  unfold jsonParse
  have hhead : strL "Here is the data: " ++ Json.ser v ++ strL " hope it helps"
      = 'H' :: (strL "ere is the data: " ++ Json.ser v ++ strL " hope it helps") := by
    rfl
  rw [hhead]
  obtain ⟨f, hf⟩ : ∃ f, 3 * ('H' :: (strL "ere is the data: " ++ Json.ser v
      ++ strL " hope it helps")).length + 3 = f + 1 :=
    ⟨3 * ('H' :: (strL "ere is the data: " ++ Json.ser v
      ++ strL " hope it helps")).length + 2, by omega⟩
  rw [hf, pVal_cons f 'H' _ (by decide)]
  simp [List.takeWhile_cons, show isDigitC 'H' = false from rfl]

/-! ## Lemmas about the correction store -/

theorem length_lastN (n : Nat) (l : List α) : (lastN n l).length ≤ n := by
  unfold lastN
  rw [List.length_drop]
  omega

theorem lastN_lastN_append (n : Nat) (a b : List α) :
    lastN n (lastN n a ++ b) = lastN n (a ++ b) := by
  rcases Nat.le_total a.length n with h | h
  · have h0 : a.length - n = 0 := by omega
    simp [lastN, h0]
  · have hlen : (lastN n a).length = n := by
      unfold lastN
      rw [List.length_drop]
      omega
    show (lastN n a ++ b).drop ((lastN n a ++ b).length - n)
        = (a ++ b).drop ((a ++ b).length - n)
    rw [List.length_append, List.length_append, hlen]
    rcases Nat.le_total b.length n with hb | hb
    · have e1 : n + b.length - n = b.length := by omega
      rw [e1,
        List.drop_append_of_le_length (by rw [hlen]; exact hb),
        List.drop_append_of_le_length (by omega : a.length + b.length - n ≤ a.length)]
      congr 1
      unfold lastN
      rw [List.drop_drop]
      congr 1
      omega
    · have e1 : n + b.length - n = (lastN n a).length + (b.length - n) := by
        rw [hlen]; omega
      have e2 : a.length + b.length - n = a.length + (b.length - n) := by omega
      rw [e1, List.drop_append, e2, List.drop_append]

theorem foldl_save (cs : List Correction) :
    ∀ s : Storage, cs ≠ [] →
      getCorrections (cs.foldl saveCorrection s)
        = lastN 50 (getCorrections s ++ cs) := by
  induction cs with
  | nil => intro s h; exact absurd rfl h
  | cons c cs ih =>
    intro s _
    rw [List.foldl_cons]
    rcases eq_or_ne cs [] with rfl | hne
    · simp [saveCorrection, getCorrections]
    · rw [ih (saveCorrection s c) hne,
        show getCorrections (saveCorrection s c)
          = lastN 50 (getCorrections s ++ [c]) from rfl,
        lastN_lastN_append]
      simp

/-! ## The claims -/

/-- C1: the claim says `fetchCityBudgetData` classifies exceptions in the
priority order quota, safety, not_found, network, generic.  The current
classifier (src/services/geminiService.ts, lines 157-169) has no
`not_found` rule: the message "Requested entity was not found", while
online, surfaces as `generic`, while the older variant's classifier
(src/unnamed/part_004) still yields `not_found` for it. -/
theorem notFound_rule_missing_eval :
    errKind (fetchCityBudgetData (strL "EUR") (strL "€")
        (.error (strL "Requested entity was not found")) true)
      = some ErrKind.generic ∧
    ErrKind.generic ≠ ErrKind.notFound ∧
    classifyKindPrev (strL "Requested entity was not found") true
      = ErrKind.notFound := by
  refine ⟨rfl, by decide, rfl⟩

/-- C2: the claim says a parse failure surfaces to the caller as a
`ServiceError` of kind `parsing` and is never re-labelled.  In the code,
the `parsing` `ServiceError` thrown at line 137 is itself caught by the
function's outer `catch` (line 157) and re-thrown as `generic` (its
message matches no marker and the run is online), carrying the inner
`parsing` error only as the `rawError`. -/
theorem parsing_kind_rewrapped_eval :
    fetchCityBudgetData (strL "EUR") (strL "€")
        (.ok ⟨some (strL "```json\x7boops```"), []⟩) true
      = .error ⟨strL "Failed to parse AI response data", ErrKind.generic,
          Cause.svcErr ErrKind.parsing⟩ ∧
    innerBody (strL "EUR") (strL "€") (strL "```json\x7boops```") []
      = .error ⟨strL "Failed to parse AI response data", ErrKind.parsing,
          Cause.parseExn⟩ ∧
    ErrKind.generic ≠ ErrKind.parsing := by
  refine ⟨rfl, rfl, by decide⟩

theorem cexObj_wf : Json.wf cexObj = true := by
  simp [cexObj, Json.wf, Json.wfMembers, plainChar, strL]

/-- C3 counterexample: for the representative object `{"a":1}` the
mid-paragraph prose mode does not recover the object — the extraction
yields nothing (there is no first-`{`-to-last-`}` fallback in the code),
although the serialization itself parses back fine. -/
theorem prose_mode_fails_cex :
    extractJson (proseEmbed cexObj) = none ∧
    extractJson (proseEmbed cexObj) ≠ some cexObj ∧
    jsonParse (Json.ser cexObj) = some cexObj := by
  have h1 := extractJson_prose cexObj cexObj_wf
  refine ⟨h1, ?_, jsonParse_ser cexObj cexObj_wf⟩
  intro h
  rw [h1] at h
  exact Option.noConfusion h

/-- C3 (amended): for every well-formed object of the modelled JSON
fragment, the extraction recovers the object identically in the
fenced-block mode and in the whole-body mode, but the mid-paragraph prose
mode always fails to parse (the code attempts a direct `JSON.parse`, which
rejects the leading prose, and has no brace-span fallback). -/
theorem extract_roundtrip_modes (v : Json) (hwf : Json.wf v = true) :
    extractJson (Json.ser v) = some v ∧
    extractJson (embedFenced v) = some v ∧
    extractJson (proseEmbed v) = none :=
  ⟨extractJson_ser v hwf, extractJson_fenced v hwf, extractJson_prose v hwf⟩

/-- Witness for C3 at the concrete object `{"a":1}`. -/
theorem extract_roundtrip_modes_witness :
    extractJson (Json.ser cexObj) = some cexObj ∧
    extractJson (embedFenced cexObj) = some cexObj ∧
    extractJson (proseEmbed cexObj) = none :=
  extract_roundtrip_modes cexObj cexObj_wf

/-- C4 counterexample: the response text "No data available." contains no
`{`...`}` span, yet the fetch does not fail with kind `empty`: the direct
`JSON.parse` attempt fails, so the inner classification is `parsing`
(and the outer catch then re-wraps it as `generic`). -/
theorem noBrace_kind_cex :
    innerBody (strL "EUR") (strL "€") (strL "No data available.") []
      = .error ⟨strL "Failed to parse AI response data", ErrKind.parsing,
          Cause.parseExn⟩ ∧
    errKind (fetchCityBudgetData (strL "EUR") (strL "€")
        (.ok ⟨some (strL "No data available."), []⟩) true)
      = some ErrKind.generic ∧
    ErrKind.parsing ≠ ErrKind.empty ∧
    ErrKind.generic ≠ ErrKind.empty := by
  refine ⟨rfl, rfl, by decide, by decide⟩

/-- C4 (amended): for every response text with no `{` at all, a failed
extraction attempt classifies as `parsing` at the point of detection, and
`empty` arises only when the extraction succeeds with a falsy JSON value
(e.g. the literal `null`). -/
theorem noBrace_parse_failure_is_parsing (text : List Char)
    (chunks : List Chunk) (cc sym : List Char)
    (_hnb : text.all (fun c => c != '{') = true) :
    (extractJson text = none →
      innerBody cc sym text chunks
        = .error ⟨strL "Failed to parse AI response data", ErrKind.parsing,
            Cause.parseExn⟩) ∧
    (∀ j, extractJson text = some j → Json.truthy j = false →
      innerBody cc sym text chunks
        = .error ⟨strL "Empty response from AI", ErrKind.empty,
            Cause.undef⟩) := by
  constructor
  · intro h
    simp [innerBody, h]
  · intro j hj ht
    simp [innerBody, hj, ht]

/-- Witness for C4 at the concrete text "No data." (both branches). -/
theorem noBrace_parse_failure_is_parsing_witness :
    innerBody (strL "EUR") (strL "€") (strL "No data.") []
      = .error ⟨strL "Failed to parse AI response data", ErrKind.parsing,
          Cause.parseExn⟩ ∧
    innerBody (strL "EUR") (strL "€") (strL "null") []
      = .error ⟨strL "Empty response from AI", ErrKind.empty, Cause.undef⟩ :=
  ⟨(noBrace_parse_failure_is_parsing (strL "No data.") [] (strL "EUR")
      (strL "€") rfl).1 rfl,
   (noBrace_parse_failure_is_parsing (strL "null") [] (strL "EUR")
      (strL "€") rfl).2 Json.null rfl rfl⟩

/-- C5 counterexample: for a payload that omits `savingTips`, the
assembled result's `savingTips` is absent (`undefined`), not the empty
sequence — the service performs no defaulting. -/
theorem savingTips_not_defaulted_cex :
    resultSavingTips (assemble (Json.obj [(strL "city", Json.str (strL "Lisboa"))])
        [] (strL "EUR") (strL "€")) = none ∧
    resultSavingTips (assemble (Json.obj [(strL "city", Json.str (strL "Lisboa"))])
        [] (strL "EUR") (strL "€")) ≠ some (Json.arr []) := by
  refine ⟨rfl, ?_⟩
  intro h
  rw [show resultSavingTips (assemble
      (Json.obj [(strL "city", Json.str (strL "Lisboa"))]) [] (strL "EUR")
      (strL "€")) = none from rfl] at h
  exact Option.noConfusion h

/-- C5 (amended): the assembled result carries the client's currency code
and symbol regardless of what the payload echoed, its source list is the
chunk list mapped with the "Market Data"/"#" defaults and capped at 5,
and `savingTips` is passed through from the payload unchanged (absent
when the payload omitted it, with no defaulting to `[]`). -/
theorem assemble_overlay_caps_defaults (payload : Json) (chunks : List Chunk)
    (cc sym : List Char) :
    (assemble payload chunks cc sym).currency = cc ∧
    (assemble payload chunks cc sym).currencySymbol = sym ∧
    (assemble payload chunks cc sym).sources.length ≤ 5 ∧
    (assemble payload chunks cc sym).sources
      = (chunks.take 5).map (mkSource payload) ∧
    (∀ ch, chunkTitle ch = none → (mkSource payload ch).title = strL "Market Data") ∧
    (∀ ch, chunkUri ch = none → (mkSource payload ch).uri = strL "#") ∧
    resultSavingTips (assemble payload chunks cc sym)
      = payload.getField (strL "savingTips") := by
  refine ⟨rfl, rfl, ?_, ?_, ?_, ?_, rfl⟩
  · show ((chunks.map (mkSource payload)).take 5).length ≤ 5
    rw [List.length_take]
    omega
  · show (chunks.map (mkSource payload)).take 5 = _
    rw [List.map_take]
  · intro ch h
    simp [mkSource, jsDefaultStr, h]
  · intro ch h
    simp [mkSource, jsDefaultStr, h]

/-- Witness for C5 at a concrete payload and a chunk without web info. -/
theorem assemble_overlay_caps_defaults_witness :
    (mkSource cexObj ⟨none⟩).title = strL "Market Data" ∧
    (mkSource cexObj ⟨none⟩).uri = strL "#" ∧
    (assemble cexObj [] (strL "EUR") (strL "€")).currency = strL "EUR" :=
  ⟨(assemble_overlay_caps_defaults cexObj [] (strL "EUR") (strL "€")).2.2.2.2.1
      ⟨none⟩ rfl,
   (assemble_overlay_caps_defaults cexObj [] (strL "EUR") (strL "€")).2.2.2.2.2.1
      ⟨none⟩ rfl,
   (assemble_overlay_caps_defaults cexObj [] (strL "EUR") (strL "€")).1⟩

/-- C6 counterexample: offline does not override the message sniffing —
a message containing "quota" classifies as `quota` even while offline,
because the quota rule is checked before the connectivity rule. -/
theorem offline_quota_precedence_cex :
    errKind (fetchCityBudgetData (strL "EUR") (strL "€")
        (.error (strL "quota")) false) = some ErrKind.quota ∧
    ErrKind.quota ≠ ErrKind.network := by
  refine ⟨rfl, by decide⟩

/-- C6 (amended): when offline, the thrown error has kind `network` for
every message that matches neither the 429/quota markers nor the safety
marker; messages matching those markers keep their quota/safety kinds. -/
theorem offline_network_when_unmarked (msg : List Char) (cause : Cause)
    (hq : hasQuotaMarker msg = false) (hs : hasSafetyMarker msg = false) :
    (classifyErr msg false cause).kind = ErrKind.network := by
  simp [classifyErr, hq, hs]

/-- Witness for C6 at the concrete message "boom". -/
theorem offline_network_when_unmarked_witness :
    (classifyErr (strL "boom") false Cause.undef).kind = ErrKind.network :=
  offline_network_when_unmarked (strL "boom") Cause.undef rfl rfl

/-- C7: after any non-empty run of `saveCorrection` calls the store holds
at most 50 entries, and recording 60 corrections in sequence from an
empty store leaves exactly the most recent 50 in their original relative
order (the suffix `cs.drop 10` of the recorded sequence, unmutated). -/
theorem correction_store_cap50 :
    (∀ (s : Storage) (cs : List Correction), cs ≠ [] →
      (getCorrections (cs.foldl saveCorrection s)).length ≤ 50) ∧
    (∀ cs : List Correction, cs.length = 60 →
      getCorrections (cs.foldl saveCorrection Storage.absent) = cs.drop 10) := by
  constructor
  · intro s cs h
    rw [foldl_save cs s h]
    exact length_lastN 50 _
  · intro cs h
    rw [foldl_save cs Storage.absent (by intro h0; rw [h0] at h; simp at h)]
    show lastN 50 ([] ++ cs) = cs.drop 10
    rw [List.nil_append]
    unfold lastN
    rw [h]

/-- Witness for C7: sixty concrete corrections leave the last fifty. -/
theorem correction_store_cap50_witness :
    getCorrections ((List.replicate 60 corr0).foldl saveCorrection
        Storage.absent) = (List.replicate 60 corr0).drop 10 ∧
    (getCorrections (([corr0] : List Correction).foldl saveCorrection
        Storage.absent)).length ≤ 50 :=
  ⟨correction_store_cap50.2 (List.replicate 60 corr0) (by simp),
   correction_store_cap50.1 Storage.absent [corr0] (by simp)⟩

/-- C8: membership in `getRelevantCorrections` is exactly: stored, and
(city matches case-insensitively, or no city is set — `undefined` or the
empty string, both falsy in JS), and the language code matches exactly;
in particular an entry for a different language is excluded even when its
city matches. -/
theorem getRelevantCorrections_spec (s : Storage) (city lang : List Char)
    (c : Correction) :
    c ∈ getRelevantCorrections s city lang ↔
      c ∈ getCorrections s ∧
      ((∃ sc, c.city = some sc ∧ lowerL sc = lowerL city) ∨
        (c.city = none ∨ c.city = some [])) ∧
      c.lang = lang := by
  unfold getRelevantCorrections
  rw [List.mem_filter]
  cases hc : c.city with
  | none => simp [cityLowerEq, jsFalsyOpt, hc]
  | some sc =>
    simp [cityLowerEq, jsFalsyOpt, hc, List.isEmpty_iff]

/-- Witness for C8: a "Paris" entry is returned for the query "PARIS". -/
theorem getRelevantCorrections_spec_witness :
    corrEn ∈ getRelevantCorrections (Storage.stored [corrEn])
      (strL "PARIS") (strL "en") :=
  (getRelevantCorrections_spec (Storage.stored [corrEn]) (strL "PARIS")
      (strL "en") corrEn).mpr
    ⟨List.mem_singleton.mpr rfl, Or.inl ⟨strL "Paris", rfl, rfl⟩, rfl⟩

/-- C9 counterexample: the suggestion client does not cap its result at
five entries — a six-element model response is returned whole. -/
theorem suggestions_uncapped_cex :
    (fetchCitySuggestions (strL "x") none
        (.ok (some (strL "[\"a\",\"b\",\"c\",\"d\",\"e\",\"f\"]")))).length = 6 ∧
    ¬ (fetchCitySuggestions (strL "x") none
        (.ok (some (strL "[\"a\",\"b\",\"c\",\"d\",\"e\",\"f\"]")))).length ≤ 5 := by
  constructor
  · rfl
  · intro h
    rw [show (fetchCitySuggestions (strL "x") none
        (.ok (some (strL "[\"a\",\"b\",\"c\",\"d\",\"e\",\"f\"]")))).length = 6
      from rfl] at h
    omega

/-- C9 (amended): the suggestion client never throws (it is a total
function of the call outcome): it returns `[]` on any exception, and
returns `[]` for empty input with no country/region filter set for every
possible call outcome (the model is irrelevant there).  Outside that
short-circuit it returns `[]` when the response fails to parse, returns
`[]` when the response parses to anything other than an array, and
otherwise returns exactly the parsed array's elements — however many the
model produced, with no cap at 5. -/
theorem suggestions_best_effort (input : List Char)
    (filters : Option SearchFiltersM)
    (call : Except (List Char) (Option (List Char))) :
    (∀ msg, call = .error msg → fetchCitySuggestions input filters call = []) ∧
    (input = [] → jsFalsyOpt (filters.bind SearchFiltersM.country) = true →
      jsFalsyOpt (filters.bind SearchFiltersM.region) = true →
      fetchCitySuggestions input filters call = []) ∧
    ((input.isEmpty && jsFalsyOpt (filters.bind SearchFiltersM.country)
        && jsFalsyOpt (filters.bind SearchFiltersM.region)) = false →
      (∀ t, call = .ok t → jsonParse (jsDefaultStr t (strL "[]")) = none →
        fetchCitySuggestions input filters call = []) ∧
      (∀ t j, call = .ok t → jsonParse (jsDefaultStr t (strL "[]")) = some j →
        (∀ xs, j ≠ Json.arr xs) →
        fetchCitySuggestions input filters call = []) ∧
      (∀ t xs, call = .ok t →
        jsonParse (jsDefaultStr t (strL "[]")) = some (Json.arr xs) →
        fetchCitySuggestions input filters call = xs)) := by
  refine ⟨?_, ?_, ?_⟩
  · rintro msg rfl
    by_cases hc : (input.isEmpty && jsFalsyOpt (filters.bind SearchFiltersM.country)
        && jsFalsyOpt (filters.bind SearchFiltersM.region)) = true
    · simp [fetchCitySuggestions, hc]
    · simp [fetchCitySuggestions, hc]
  · rintro rfl h2 h3
    simp [fetchCitySuggestions, h2, h3]
  · intro hc
    refine ⟨?_, ?_, ?_⟩
    · rintro t rfl hp
      simp [fetchCitySuggestions, hc, hp]
    · rintro t j rfl hp hna
      cases j with
      | arr xs => exact absurd rfl (hna xs)
      | null => simp [fetchCitySuggestions, hc, hp]
      | bool b => simp [fetchCitySuggestions, hc, hp]
      | num n => simp [fetchCitySuggestions, hc, hp]
      | str s => simp [fetchCitySuggestions, hc, hp]
      | obj kvs => simp [fetchCitySuggestions, hc, hp]
    · rintro t xs rfl hp
      simp [fetchCitySuggestions, hc, hp]

/-- Witness for C9: a failed call yields the empty list; a non-empty
input with a one-element array response gets that array passed through;
a response parsing to an object yields the empty list. -/
theorem suggestions_best_effort_witness :
    fetchCitySuggestions (strL "x") none (.error (strL "boom")) = [] ∧
    fetchCitySuggestions (strL "x") none (.ok (some (strL "[\"a\"]")))
      = [Json.str (strL "a")] ∧
    fetchCitySuggestions (strL "x") none (.ok (some (strL "\x7b\x7d"))) = [] :=
  ⟨(suggestions_best_effort (strL "x") none (.error (strL "boom"))).1
      (strL "boom") rfl,
   ((suggestions_best_effort (strL "x") none
        (.ok (some (strL "[\"a\"]")))).2.2 rfl).2.2
      (some (strL "[\"a\"]")) [Json.str (strL "a")] rfl rfl,
   ((suggestions_best_effort (strL "x") none
        (.ok (some (strL "\x7b\x7d")))).2.2 rfl).2.1
      (some (strL "\x7b\x7d")) (Json.obj []) rfl rfl
      (fun _ h => Json.noConfusion h)⟩

/-- C10: reading the store never fails at the public interface — an
absent or unparseable storage slot reads as the empty list, so saving
into it yields exactly the one-element store and the relevance filter
returns nothing, just as for an empty store. -/
theorem corrupt_storage_safe :
    (getCorrections Storage.absent = [] ∧ getCorrections Storage.corrupt = []) ∧
    (∀ c, saveCorrection Storage.absent c = Storage.stored [c] ∧
      saveCorrection Storage.corrupt c = Storage.stored [c] ∧
      saveCorrection Storage.corrupt c = saveCorrection (Storage.stored []) c) ∧
    (∀ city lang, getRelevantCorrections Storage.absent city lang = [] ∧
      getRelevantCorrections Storage.corrupt city lang = []) := by
  exact ⟨⟨rfl, rfl⟩, fun c => ⟨rfl, rfl, rfl⟩, fun city lang => ⟨rfl, rfl⟩⟩

end Calc
